import Mathlib

/-!
Shallow embedding of `src/main.rs` of the knucklebones repository:
a combinatorial enumeration of the states of a two-player dice-column game.
Rust `u8`/`u16`/`u64` values are modelled as `Nat` (overflow is addressed by
explicit bound theorems where a claim concerns it).
-/

/-- The six die faces, mirroring Rust `enum Die { ONE = 1, ..., SIX = 6 }`. -/
inductive Die where
  | ONE | TWO | THREE | FOUR | FIVE | SIX
deriving DecidableEq, Repr, Fintype

/-- Numeric value of a die face, mirroring Rust `d as u8`. -/
def Die.toNat : Die → Nat
  | .ONE => 1
  | .TWO => 2
  | .THREE => 3
  | .FOUR => 4
  | .FIVE => 5
  | .SIX => 6

/-- Mirrors `Die::VALUES`. -/
def Die.VALUES : List Die := [.ONE, .TWO, .THREE, .FOUR, .FIVE, .SIX]

/-- Mirrors Rust `struct HandExplicit`: up to three optional dice. -/
structure HandExplicit where
  die_1 : Option Die
  die_2 : Option Die
  die_3 : Option Die
deriving DecidableEq, Repr, Fintype

namespace HandExplicit

/-- Mirrors `HandExplicit::empty()`. -/
def empty : HandExplicit := ⟨none, none, none⟩

/-- Mirrors `HandExplicit::new1(die_1)`. -/
def new1 (die_1 : Die) : HandExplicit := ⟨some die_1, none, none⟩

/-- Mirrors `HandExplicit::new2(die_1, die_2)`. -/
def new2 (die_1 die_2 : Die) : HandExplicit := ⟨some die_1, some die_2, none⟩

/-- Mirrors `HandExplicit::new(die_1, die_2, die_3)`. -/
def new (die_1 die_2 die_3 : Die) : HandExplicit :=
  ⟨some die_1, some die_2, some die_3⟩

/-- Mirrors `HandExplicit::val(die)`: `None => 0`, `Some(d) => d as u8`. -/
def val : Option Die → Nat
  | none => 0
  | some d => d.toNat

/-- Mirrors `val_1`. -/
def val_1 (h : HandExplicit) : Nat := val h.die_1

/-- Mirrors `val_2`. -/
def val_2 (h : HandExplicit) : Nat := val h.die_2

/-- Mirrors `val_3`. -/
def val_3 (h : HandExplicit) : Nat := val h.die_3

/-- Mirrors `Hand::has` for `HandExplicit`. -/
def has (h : HandExplicit) (die : Die) : Bool :=
  h.die_1 == some die || h.die_2 == some die || h.die_3 == some die

/-- Mirrors `Hand::is_full` for `HandExplicit`: `die_3.is_some()`. -/
def is_full (h : HandExplicit) : Bool := h.die_3.isSome

/-- Mirrors `Hand::len` for `HandExplicit`. -/
def len (h : HandExplicit) : Nat :=
  if h.die_3.isSome then 3
  else if h.die_2.isSome then 2
  else if h.die_1.isSome then 1
  else 0

/-- Mirrors `Hand::score` for `HandExplicit`: sum of values plus a squared
bonus for each of the option-equality checks `die_1 == die_2`,
`die_2 == die_3`, `die_1 == die_3`. -/
def score (h : HandExplicit) : Nat :=
  let abc := h.val_1 + h.val_2 + h.val_3
  let ab := if h.die_1 = h.die_2 then h.val_1 * h.val_1 else 0
  let bc := if h.die_2 = h.die_3 then h.val_2 * h.val_2 else 0
  let ac := if h.die_1 = h.die_3 then h.val_1 * h.val_1 else 0
  abc + ab + bc + ac

end HandExplicit

/-- Mirrors the free function `overlaps`: the two hands share some die value. -/
def overlaps (hand_1 hand_2 : HandExplicit) : Bool :=
  (hand_1.has .ONE && hand_2.has .ONE)
    || (hand_1.has .TWO && hand_2.has .TWO)
    || (hand_1.has .THREE && hand_2.has .THREE)
    || (hand_1.has .FOUR && hand_2.has .FOUR)
    || (hand_1.has .FIVE && hand_2.has .FIVE)
    || (hand_1.has .SIX && hand_2.has .SIX)

/-- Mirrors `fn hands()`: pushes the empty hand, then for each `d1` the
1-die hand, for each `d2 ≥ d1` the 2-die hand, and for each `d3 ≥ d2` the
3-die hand, in the source's push order (`iter().skip` becomes `List.drop`). -/
def hands : List HandExplicit :=
  HandExplicit.empty ::
    (Die.VALUES.enum.flatMap fun p1 =>
      HandExplicit.new1 p1.2 ::
        ((Die.VALUES.drop p1.1).enum.flatMap fun p2 =>
          HandExplicit.new2 p1.2 p2.2 ::
            ((Die.VALUES.drop (p1.1 + p2.1)).map fun d3 =>
              HandExplicit.new p1.2 p2.2 d3)))

/-- Mirrors `fn hand_pairs`: all ordered pairs from `hs × hs` that do not
overlap, in the source's push order. -/
def hand_pairs (hs : List HandExplicit) : List (HandExplicit × HandExplicit) :=
  hs.flatMap fun hand_1 =>
    (hs.filter fun hand_2 => !overlaps hand_1 hand_2).map fun hand_2 =>
      (hand_1, hand_2)

/-- The innermost body of `fn state_counts`: given the three column
hand-pairs and the two accumulators `(intermediate_states, final_states)`,
skip when both players are full, increment `final_states` on exclusive-or,
otherwise increment `intermediate_states`. -/
def countStep (column_1 column_2 column_3 : HandExplicit × HandExplicit)
    (acc : Nat × Nat) : Nat × Nat :=
  let p1_full := column_1.1.is_full && column_2.1.is_full && column_3.1.is_full
  let p2_full := column_1.2.is_full && column_2.2.is_full && column_3.2.is_full
  if p1_full && p2_full then acc
  else if xor p1_full p2_full then (acc.1, acc.2 + 1)
  else (acc.1 + 1, acc.2)

/-- Mirrors `fn state_counts`: the triple-nested loop over hand-pairs with
`enumerate`/`skip` bounds (`skip` becomes `List.drop`), folding `countStep`
over the visited column triples, starting from `(0, 0)`. -/
def state_counts (hps : List (HandExplicit × HandExplicit)) : Nat × Nat :=
  hps.enum.foldl (fun acc p1 =>
    (hps.drop p1.1).enum.foldl (fun acc2 p2 =>
      (hps.drop (p1.1 + p2.1)).foldl (fun acc3 column_3 =>
        countStep p1.2 p2.2 column_3 acc3) acc2) acc) (0, 0)

/-- The list of column triples `(column_1, column_2, column_3)` visited by
the innermost body of `state_counts`, in visit order: same `enum`/`drop`
structure as `state_counts`, emitting instead of counting. -/
def visitedTriples (hps : List (HandExplicit × HandExplicit)) :
    List ((HandExplicit × HandExplicit) × (HandExplicit × HandExplicit) ×
      (HandExplicit × HandExplicit)) :=
  hps.enum.flatMap fun p1 =>
    (hps.drop p1.1).enum.flatMap fun p2 =>
      (hps.drop (p1.1 + p2.1)).map fun column_3 => (p1.2, p2.2, column_3)

/-- The index triples visited by the loop of `state_counts` over a list of
length `n`, in visit order: the outer loop index `i = ix_1`, the middle
position `i + ix_2`, and the inner position `i + ix_2 + m` (`enumerate`
offsets of the source's `skip` calls). -/
def idxTriples (n : Nat) : List (Nat × Nat × Nat) :=
  (List.range n).flatMap fun i =>
    (List.range (n - i)).flatMap fun m =>
      (List.range (n - (i + m))).map fun m2 => (i, i + m, i + m + m2)

/-- Look up the three hand-pairs of an index triple (out-of-range indices,
which never occur for visited triples, default to a pair of empty hands). -/
def get3 (hps : List (HandExplicit × HandExplicit)) (t : Nat × Nat × Nat) :
    (HandExplicit × HandExplicit) × (HandExplicit × HandExplicit) ×
      (HandExplicit × HandExplicit) :=
  (hps.getD t.1 (HandExplicit.empty, HandExplicit.empty),
   hps.getD t.2.1 (HandExplicit.empty, HandExplicit.empty),
   hps.getD t.2.2 (HandExplicit.empty, HandExplicit.empty))

/-- Mirrors the `p1_full` computation of `state_counts`: player 1's hand is
full in all three columns. -/
def p1_full (column_1 column_2 column_3 : HandExplicit × HandExplicit) : Bool :=
  column_1.1.is_full && column_2.1.is_full && column_3.1.is_full

/-- Mirrors the `p2_full` computation of `state_counts`: player 2's hand is
full in all three columns. -/
def p2_full (column_1 column_2 column_3 : HandExplicit × HandExplicit) : Bool :=
  column_1.2.is_full && column_2.2.is_full && column_3.2.is_full

/-- A visited column triple is invalid (skipped by `state_counts`): both
players are simultaneously full. -/
def tripleInvalid (t : (HandExplicit × HandExplicit) ×
    (HandExplicit × HandExplicit) × (HandExplicit × HandExplicit)) : Bool :=
  p1_full t.1 t.2.1 t.2.2 && p2_full t.1 t.2.1 t.2.2

/-- A visited column triple is final: exactly one player is full. -/
def tripleFinal (t : (HandExplicit × HandExplicit) ×
    (HandExplicit × HandExplicit) × (HandExplicit × HandExplicit)) : Bool :=
  xor (p1_full t.1 t.2.1 t.2.2) (p2_full t.1 t.2.1 t.2.2)

/-- A visited column triple is intermediate: neither player is full. -/
def tripleIntermediate (t : (HandExplicit × HandExplicit) ×
    (HandExplicit × HandExplicit) × (HandExplicit × HandExplicit)) : Bool :=
  !p1_full t.1 t.2.1 t.2.2 && !p2_full t.1 t.2.1 t.2.2

/-- Mirrors `struct State`: three column hand-pair indices (`u16` modelled
as `Nat`). -/
structure State where
  column_1 : Nat
  column_2 : Nat
  column_3 : Nat
deriving DecidableEq, Repr

/-- Models `x.sort_unstable()` on the three-element array `[a, b, c]` of
`State::new_by_index`: the sorted rearrangement of the three values. -/
def sort3 (a b c : Nat) : Nat × Nat × Nat :=
  if a ≤ b then
    if b ≤ c then (a, b, c)
    else if a ≤ c then (a, c, b)
    else (c, a, b)
  else
    if a ≤ c then (b, a, c)
    else if b ≤ c then (b, c, a)
    else (c, b, a)

/-- Mirrors `State::new_by_index`: sort the three indices and store them in
ascending order. -/
def State.new_by_index (column_a column_b column_c : Nat) : State :=
  let x := sort3 column_a column_b column_c
  { column_1 := x.1, column_2 := x.2.1, column_3 := x.2.2 }

/-- Mirrors `fn main`'s standard output: the five printed lines, in order
(`println!` formatting becomes string concatenation). -/
def mainLines : List String :=
  let hs := hands
  let hps := hand_pairs hs
  let sc := state_counts hps
  ["Hands: " ++ toString hs.length,
   "Hand pairs: " ++ toString hps.length,
   "Intermediate states: " ++ toString sc.1,
   "Final states: " ++ toString sc.2,
   "Total: " ++ toString (sc.1 + sc.2)]

/-- Models a run of the process: the entry point takes no input, so a run
is a function of the trivial argument, producing the printed lines. -/
def runProgram (_ : Unit) : List String := mainLines

/-- Spec-side definition (for the refinement claim about `hands`): a hand
satisfying the Hand invariants — the empty hand, a 1-die hand, a
non-decreasing 2-die hand, or a non-decreasing 3-die hand. -/
def validHandSpec (h : HandExplicit) : Prop :=
  h = HandExplicit.empty ∨
    (∃ d1, h = HandExplicit.new1 d1) ∨
    (∃ d1 d2, d1.toNat ≤ d2.toNat ∧ h = HandExplicit.new2 d1 d2) ∨
    (∃ d1 d2 d3, d1.toNat ≤ d2.toNat ∧ d2.toNat ≤ d3.toNat ∧
      h = HandExplicit.new d1 d2 d3)

instance (h : HandExplicit) : Decidable (validHandSpec h) := by
  unfold validHandSpec; infer_instance

/-- Spec-side definition (for the score claim): sum of the assigned die
values plus, for each of the position pairs (1,2), (2,3), (1,3) whose two
slots are both assigned and hold equal values, the square of that shared
value. -/
def specScore (h : HandExplicit) : Nat :=
  HandExplicit.val h.die_1 + HandExplicit.val h.die_2 + HandExplicit.val h.die_3
    + (match h.die_1, h.die_2 with
       | some a, some b => if a = b then a.toNat * a.toNat else 0
       | _, _ => 0)
    + (match h.die_2, h.die_3 with
       | some a, some b => if a = b then a.toNat * a.toNat else 0
       | _, _ => 0)
    + (match h.die_1, h.die_3 with
       | some a, some b => if a = b then a.toNat * a.toNat else 0
       | _, _ => 0)

/-- The assigned dice of a hand, in slot order (observer used to state
spec properties about distinctness and ordering). -/
def HandExplicit.dice (h : HandExplicit) : List Die :=
  [h.die_1, h.die_2, h.die_3].filterMap id

/-- Executable non-decreasing check on a list of values (observer used to
state the spec's "hand stays non-decreasing"). -/
def nondecreasing : List Nat → Bool
  | [] => true
  | [_] => true
  | a :: b :: rest => a ≤ b && nondecreasing (b :: rest)

/-- Executable form of `validHandSpec` (same spec wording: the four hand
shapes, non-decreasing where two dice are adjacent). -/
def validHandSpecB (h : HandExplicit) : Bool :=
  match h.die_1, h.die_2, h.die_3 with
  | none, none, none => true
  | some _, none, none => true
  | some a, some b, none => a.toNat ≤ b.toNat
  | some a, some b, some c => a.toNat ≤ b.toNat && b.toNat ≤ c.toNat
  | _, _, _ => false

/-- All seven values of `Option Die`, for exhaustive enumeration. -/
def allOptDie : List (Option Die) := none :: Die.VALUES.map some

/-- All 343 structurally possible `HandExplicit` values. -/
def allHands : List HandExplicit :=
  allOptDie.flatMap fun a =>
    allOptDie.flatMap fun b =>
      allOptDie.map fun c => ⟨a, b, c⟩

/-- A small concrete list of column hand-pairs, used to instantiate the
general `state_counts` theorems. -/
def samplePairs : List (HandExplicit × HandExplicit) :=
  [(HandExplicit.new .ONE .ONE .ONE, HandExplicit.new .TWO .TWO .TWO),
   (HandExplicit.new .ONE .ONE .ONE, HandExplicit.empty)]

set_option maxRecDepth 40000

/-! ## Helper lemmas -/

theorem validHandSpec_iff (h : HandExplicit) :
    validHandSpec h ↔ validHandSpecB h = true := by
  obtain ⟨a, b, c⟩ := h
  rcases a with _ | a <;> rcases b with _ | b <;> rcases c with _ | c <;>
    simp [validHandSpec, validHandSpecB, HandExplicit.empty, HandExplicit.new1,
      HandExplicit.new2, HandExplicit.new, HandExplicit.mk.injEq]
  constructor
  · rintro ⟨d1, d2, h1, x, h2, rfl, rfl, rfl⟩; exact ⟨h1, h2⟩
  · rintro ⟨h1, h2⟩; exact ⟨a, b, h1, c, h2, rfl, rfl, rfl⟩

theorem mem_allHands (h : HandExplicit) : h ∈ allHands := by
  obtain ⟨a, b, c⟩ := h
  refine List.mem_flatMap.2 ⟨a, ?_, List.mem_flatMap.2 ⟨b, ?_,
    List.mem_map.2 ⟨c, ?_, rfl⟩⟩⟩
  · rcases a with _ | d <;> [decide; (cases d <;> decide)]
  · rcases b with _ | d <;> [decide; (cases d <;> decide)]
  · rcases c with _ | d <;> [decide; (cases d <;> decide)]

theorem hands_nodup : hands.Nodup := by decide

theorem hands_length : hands.length = 84 := by decide

theorem hands_all_valid : ∀ h ∈ hands, validHandSpecB h = true := by decide

theorem validFilter_length : (allHands.filter validHandSpecB).length = 84 := by
  decide

theorem hands_perm_validFilter : hands.Perm (allHands.filter validHandSpecB) := by
  refine (List.subperm_of_subset hands_nodup ?_).perm_of_length_le ?_
  · intro h hm
    exact List.mem_filter.2 ⟨mem_allHands h, hands_all_valid h hm⟩
  · rw [validFilter_length, hands_length]

theorem mem_hands_iff (h : HandExplicit) : h ∈ hands ↔ validHandSpec h := by
  rw [hands_perm_validFilter.mem_iff, List.mem_filter, validHandSpec_iff]
  simp [mem_allHands h]

theorem mem_hand_pairs {hs : List HandExplicit} {p : HandExplicit × HandExplicit} :
    p ∈ hand_pairs hs ↔ p.1 ∈ hs ∧ p.2 ∈ hs ∧ overlaps p.1 p.2 = false := by
  unfold hand_pairs
  simp only [List.mem_flatMap, List.mem_map, List.mem_filter, Bool.not_eq_true']
  constructor
  · rintro ⟨h1, hh1, h2, ⟨hh2, hov⟩, rfl⟩; exact ⟨hh1, hh2, hov⟩
  · rintro ⟨hh1, hh2, hov⟩; exact ⟨p.1, hh1, p.2, ⟨hh2, hov⟩, rfl⟩

theorem overlaps_comm (h1 h2 : HandExplicit) : overlaps h1 h2 = overlaps h2 h1 := by
  simp only [overlaps, Bool.and_comm]

/-! ## Claim theorems (first batch) -/

/-- C1: the hand generator produces exactly the set of hands satisfying
the Hand invariants (empty, 1-die, non-decreasing 2-die, non-decreasing
3-die), with no duplicates and no omissions, and the list has exactly 84
elements. -/
theorem hands_exactly_valid :
    hands.length = 84 ∧ hands.Nodup ∧
      ∀ h : HandExplicit, h ∈ hands ↔ validHandSpec h :=
  ⟨hands_length, hands_nodup, mem_hands_iff⟩

/-- C4: `score` equals the spec's description (sum of values plus a squared
bonus for each position pair both assigned with equal values); a triple of
equal dice `v` scores `3·v + 3·v²`; `(2,2,2) = 18`, `(1,2,6) = 9`,
`(3,3,5) = 20`. -/
theorem score_matches_spec :
    (∀ h : HandExplicit, h.score = specScore h) ∧
      (∀ v : Die, (HandExplicit.new v v v).score
        = 3 * v.toNat + 3 * (v.toNat * v.toNat)) ∧
      (HandExplicit.new .TWO .TWO .TWO).score = 18 ∧
      (HandExplicit.new .ONE .TWO .SIX).score = 9 ∧
      (HandExplicit.new .THREE .THREE .FIVE).score = 20 :=
  ⟨by decide, by decide, by decide, by decide, by decide⟩

/-- C5 (counterexample): the generated hand `(1,1)` has `len = 2` but
`has(d)` holds for exactly one die value, refuting "`has(d)` holds for
exactly `len(h)` distinct die values". -/
theorem has_count_counterexample :
    HandExplicit.new2 .ONE .ONE ∈ hands ∧
      (Die.VALUES.countP fun d => (HandExplicit.new2 .ONE .ONE).has d) = 1 ∧
      (HandExplicit.new2 .ONE .ONE).len = 2 := by
  refine ⟨?_, by decide, by decide⟩
  decide

/-- C5 (amended): for every generated hand, `has(d)` holds for exactly the
number of distinct assigned die values, which is at most `len(h)` with
equality iff the assigned dice are pairwise distinct; and the assigned
dice are non-decreasing by face value. -/
theorem has_count_amended :
    ∀ h ∈ hands,
      (Die.VALUES.countP fun d => h.has d) = h.dice.dedup.length ∧
      (Die.VALUES.countP fun d => h.has d) ≤ h.len ∧
      ((Die.VALUES.countP fun d => h.has d) = h.len ↔ h.dice.Nodup) ∧
      nondecreasing (h.dice.map Die.toNat) = true := by
  decide

/-- C5 witness: the amended statement evaluated at the concrete hand
`(1,2)`. -/
theorem has_count_amended_witness :
    (Die.VALUES.countP fun d => (HandExplicit.new2 .ONE .TWO).has d)
        = (HandExplicit.new2 .ONE .TWO).dice.dedup.length ∧
      (Die.VALUES.countP fun d => (HandExplicit.new2 .ONE .TWO).has d)
        ≤ (HandExplicit.new2 .ONE .TWO).len ∧
      ((Die.VALUES.countP fun d => (HandExplicit.new2 .ONE .TWO).has d)
        = (HandExplicit.new2 .ONE .TWO).len ↔
          (HandExplicit.new2 .ONE .TWO).dice.Nodup) ∧
      nondecreasing ((HandExplicit.new2 .ONE .TWO).dice.map Die.toNat) = true :=
  has_count_amended (HandExplicit.new2 .ONE .TWO) (by decide)

/-- C6: a hand overlaps itself iff it is non-empty; consequently a pair
`(h, h)` occurs in the hand-pair list only for the empty hand. -/
theorem overlaps_self_iff_empty :
    (∀ h : HandExplicit, overlaps h h = false ↔ h = HandExplicit.empty) ∧
      ∀ p ∈ hand_pairs hands, p.1 = p.2 → p.1 = HandExplicit.empty := by
  have base : ∀ h : HandExplicit, overlaps h h = false ↔ h = HandExplicit.empty := by
    decide
  refine ⟨base, fun p hp heq => ?_⟩
  have hov := (mem_hand_pairs.1 hp).2.2
  rw [← heq] at hov
  exact (base p.1).1 hov

/-- C6 witness: the second component applied to the concrete pair of empty
hands, which is the first generated hand-pair. -/
theorem overlaps_self_iff_empty_witness :
    (HandExplicit.empty, HandExplicit.empty).1 = HandExplicit.empty :=
  overlaps_self_iff_empty.2 (HandExplicit.empty, HandExplicit.empty)
    (by decide) rfl

/-- C7: the overlap predicate is symmetric, so the swap of any generated
(non-overlapping) hand-pair is still non-overlapping. -/
theorem overlaps_symm_swap :
    (∀ h1 h2 : HandExplicit, overlaps h1 h2 = overlaps h2 h1) ∧
      ∀ p ∈ hand_pairs hands, overlaps p.2 p.1 = false := by
  refine ⟨overlaps_comm, fun p hp => ?_⟩
  rw [overlaps_comm]
  exact (mem_hand_pairs.1 hp).2.2

/-- C7 witness: the swapped pair of empty hands does not overlap. -/
theorem overlaps_symm_swap_witness :
    overlaps (HandExplicit.empty, HandExplicit.empty).2
      (HandExplicit.empty, HandExplicit.empty).1 = false :=
  overlaps_symm_swap.2 (HandExplicit.empty, HandExplicit.empty) (by decide)

/-- C10: for every `HandExplicit`, `score` is at most 126, and every
intermediate `u8` sum and product inside `score` (the value sum, the
squared bonuses, and the running total) stays strictly below `2^8`, so no
`u8` addition or multiplication overflows. -/
theorem score_no_overflow :
    ∀ h : HandExplicit,
      h.val_1 + h.val_2 + h.val_3 ≤ 18 ∧
      h.val_1 * h.val_1 ≤ 36 ∧
      h.val_2 * h.val_2 ≤ 36 ∧
      h.score ≤ 126 ∧
      h.score < 2 ^ 8 := by
  decide

/-- C8: `State::new_by_index` is invariant under all permutations of its
three arguments, and the resulting state's indices are sorted ascending. -/
theorem new_by_index_canonical :
    ∀ a b c : Nat,
      State.new_by_index a c b = State.new_by_index a b c ∧
      State.new_by_index b a c = State.new_by_index a b c ∧
      State.new_by_index b c a = State.new_by_index a b c ∧
      State.new_by_index c a b = State.new_by_index a b c ∧
      State.new_by_index c b a = State.new_by_index a b c ∧
      (State.new_by_index a b c).column_1 ≤ (State.new_by_index a b c).column_2 ∧
      (State.new_by_index a b c).column_2 ≤ (State.new_by_index a b c).column_3 := by
  intro a b c
  unfold State.new_by_index sort3
  split_ifs <;> simp_all [State.mk.injEq] <;> omega

/-! ## Fold characterization of `state_counts` -/

theorem countStep_eq (c1 c2 c3 : HandExplicit × HandExplicit) (acc : Nat × Nat) :
    countStep c1 c2 c3 acc =
      (acc.1 + (if tripleIntermediate (c1, c2, c3) then 1 else 0),
       acc.2 + (if tripleFinal (c1, c2, c3) then 1 else 0)) := by
  unfold countStep tripleIntermediate tripleFinal p1_full p2_full
  cases h1 : c1.1.is_full && c2.1.is_full && c3.1.is_full <;>
    cases h2 : c1.2.is_full && c2.2.is_full && c3.2.is_full <;>
      simp [h1, h2]

theorem foldl_inner (c1 c2 : HandExplicit × HandExplicit) :
    ∀ (l : List (HandExplicit × HandExplicit)) (acc : Nat × Nat),
      l.foldl (fun acc3 c3 => countStep c1 c2 c3 acc3) acc =
        (acc.1 + ((l.map fun c3 => (c1, c2, c3)).countP tripleIntermediate),
         acc.2 + ((l.map fun c3 => (c1, c2, c3)).countP tripleFinal))
  | [], acc => by simp
  | x :: xs, acc => by
    rw [List.foldl_cons, countStep_eq, foldl_inner c1 c2 xs]
    simp only [List.map_cons, List.countP_cons]
    refine Prod.ext ?_ ?_ <;> simp <;> omega

theorem foldl_countP_pair {γ T : Type} (P Q : T → Bool) (g : γ → List T)
    (F : Nat × Nat → γ → Nat × Nat)
    (hF : ∀ acc x, F acc x = (acc.1 + (g x).countP P, acc.2 + (g x).countP Q)) :
    ∀ (l : List γ) (acc : Nat × Nat),
      l.foldl F acc =
        (acc.1 + (l.flatMap g).countP P, acc.2 + (l.flatMap g).countP Q)
  | [], acc => by simp
  | x :: xs, acc => by
    rw [List.foldl_cons, hF, foldl_countP_pair P Q g F hF xs]
    simp only [List.flatMap_cons, List.countP_append]
    refine Prod.ext ?_ ?_ <;> simp <;> omega

theorem state_counts_eq_countP (hps : List (HandExplicit × HandExplicit)) :
    state_counts hps =
      ((visitedTriples hps).countP tripleIntermediate,
       (visitedTriples hps).countP tripleFinal) := by
  unfold state_counts visitedTriples
  have inner : ∀ (p1 : Nat × (HandExplicit × HandExplicit)) (acc : Nat × Nat),
      (hps.drop p1.1).enum.foldl (fun acc2 p2 =>
        (hps.drop (p1.1 + p2.1)).foldl
          (fun acc3 c3 => countStep p1.2 p2.2 c3 acc3) acc2) acc
      = (acc.1 + (((hps.drop p1.1).enum.flatMap fun p2 =>
            (hps.drop (p1.1 + p2.1)).map fun c3 =>
              (p1.2, p2.2, c3)).countP tripleIntermediate),
         acc.2 + (((hps.drop p1.1).enum.flatMap fun p2 =>
            (hps.drop (p1.1 + p2.1)).map fun c3 =>
              (p1.2, p2.2, c3)).countP tripleFinal)) := by
    intro p1 acc
    exact foldl_countP_pair tripleIntermediate tripleFinal
      (fun p2 : Nat × (HandExplicit × HandExplicit) =>
        (hps.drop (p1.1 + p2.1)).map fun c3 => (p1.2, p2.2, c3))
      _ (fun acc2 p2 => foldl_inner p1.2 p2.2 _ acc2) _ acc
  rw [foldl_countP_pair tripleIntermediate tripleFinal
      (fun p1 => (hps.drop p1.1).enum.flatMap fun p2 =>
        (hps.drop (p1.1 + p2.1)).map fun c3 => (p1.2, p2.2, c3))
      _ (fun acc p1 => inner p1 acc)]
  simp

theorem triple_classes (t : (HandExplicit × HandExplicit) ×
    (HandExplicit × HandExplicit) × (HandExplicit × HandExplicit)) :
    (if tripleIntermediate t then 1 else 0) + (if tripleFinal t then 1 else 0)
      + (if tripleInvalid t then 1 else 0) = 1 := by
  unfold tripleIntermediate tripleFinal tripleInvalid
  cases h1 : p1_full t.1 t.2.1 t.2.2 <;>
    cases h2 : p2_full t.1 t.2.1 t.2.2 <;> simp

theorem countP_partition (l : List ((HandExplicit × HandExplicit) ×
    (HandExplicit × HandExplicit) × (HandExplicit × HandExplicit))) :
    l.countP tripleIntermediate + l.countP tripleFinal + l.countP tripleInvalid
      = l.length := by
  induction l with
  | nil => simp
  | cons t ts ih =>
    simp only [List.countP_cons, List.length_cons]
    have := triple_classes t
    omega

/-! ## The visited triples in terms of index triples -/

theorem enum_eq_range_map {α : Type} (l : List α) (d : α) :
    l.enum = (List.range l.length).map fun i => (i, l.getD i d) := by
  apply List.ext_getElem
  · simp
  · intro i h1 h2
    have hb : i < l.length := by simpa using h1
    simp only [List.enum, List.getElem_enumFrom, List.getElem_map,
      List.getElem_range, Nat.zero_add]
    rw [List.getD_eq_getElem l d hb]

theorem getD_drop {α : Type} (l : List α) (i m : Nat) (d : α) :
    (l.drop i).getD m d = l.getD (i + m) d := by
  rcases Nat.lt_or_ge m (l.drop i).length with h | h
  · have hb : i + m < l.length := by
      rw [List.length_drop] at h; omega
    rw [List.getD_eq_getElem _ d h, List.getElem_drop, List.getD_eq_getElem l d hb]
  · have hb : l.length ≤ i + m := by
      rw [List.length_drop] at h; omega
    rw [List.getD_eq_default _ d h, List.getD_eq_default l d hb]

theorem drop_eq_range_map {α : Type} (l : List α) (j : Nat) (d : α) :
    l.drop j = (List.range (l.length - j)).map fun m => l.getD (j + m) d := by
  apply List.ext_getElem
  · simp
  · intro i h1 h2
    have hb : j + i < l.length := by
      rw [List.length_drop] at h1; omega
    simp only [List.getElem_drop, List.getElem_map, List.getElem_range]
    rw [List.getD_eq_getElem l d hb]

theorem flatMap_congr_mem {α β : Type} {l : List α} {f g : α → List β}
    (h : ∀ a ∈ l, f a = g a) : l.flatMap f = l.flatMap g := by
  induction l with
  | nil => rfl
  | cons x xs ih =>
    simp only [List.flatMap_cons]
    rw [h x (List.mem_cons_self x xs), ih fun a ha => h a (List.mem_cons_of_mem _ ha)]

theorem visited_eq (hps : List (HandExplicit × HandExplicit)) :
    visitedTriples hps = (idxTriples hps.length).map (get3 hps) := by
  unfold visitedTriples idxTriples
  rw [enum_eq_range_map hps (HandExplicit.empty, HandExplicit.empty),
    List.flatMap_map, List.map_flatMap]
  apply flatMap_congr_mem
  intro i hi
  simp only [Function.comp]
  rw [enum_eq_range_map (hps.drop i) (HandExplicit.empty, HandExplicit.empty),
    List.flatMap_map, List.length_drop, List.map_flatMap]
  apply flatMap_congr_mem
  intro m hm
  simp only [Function.comp]
  rw [getD_drop, drop_eq_range_map hps (i + m)
      (HandExplicit.empty, HandExplicit.empty),
    List.map_map, List.map_map]
  apply List.map_congr_left
  intro m2 hm2
  simp [Function.comp, get3]

theorem mem_idxTriples {n : Nat} {t : Nat × Nat × Nat} :
    t ∈ idxTriples n ↔ t.1 ≤ t.2.1 ∧ t.2.1 ≤ t.2.2 ∧ t.2.2 < n := by
  obtain ⟨i, j, k⟩ := t
  simp only [idxTriples, List.mem_flatMap, List.mem_map, List.mem_range]
  constructor
  · rintro ⟨i', hi', m, hm, m2, hm2, heq⟩
    simp only [Prod.mk.injEq] at heq
    omega
  · rintro ⟨h1, h2, h3⟩
    refine ⟨i, by omega, j - i, by omega, k - j, by omega, ?_⟩
    simp only [Prod.mk.injEq, true_and]
    omega

theorem nodup_idxTriples (n : Nat) : (idxTriples n).Nodup := by
  unfold idxTriples
  rw [List.nodup_flatMap]
  constructor
  · intro i _
    rw [List.nodup_flatMap]
    constructor
    · intro m _
      refine List.Nodup.map ?_ (List.nodup_range _)
      intro x y hxy
      simp only [Prod.mk.injEq] at hxy
      omega
    · refine (List.pairwise_lt_range _).imp ?_
      intro m m' hlt x hx hx'
      simp only [List.mem_map] at hx hx'
      obtain ⟨m2, _, rfl⟩ := hx
      obtain ⟨m2', _, heq⟩ := hx'
      simp only [Prod.mk.injEq] at heq
      omega
  · refine (List.pairwise_lt_range _).imp ?_
    intro i i' hlt x hx hx'
    simp only [List.mem_flatMap, List.mem_map] at hx hx'
    obtain ⟨m, _, m2, _, rfl⟩ := hx
    obtain ⟨m', _, m2', _, heq⟩ := hx'
    simp only [Prod.mk.injEq] at heq
    omega

theorem sum_range_sub (t : Nat) :
    ((List.range t).map fun m => t - m).sum = Nat.choose (t + 1) 2 := by
  induction t with
  | zero => simp
  | succ t ih =>
    rw [List.range_succ_eq_map, List.map_cons, List.map_map, List.sum_cons]
    have he : ((List.range t).map ((fun m => t + 1 - m) ∘ Nat.succ)).sum
        = ((List.range t).map fun m => t - m).sum := by
      congr 1
      apply List.map_congr_left
      intro m _
      simp [Function.comp, Nat.succ_sub_succ]
    rw [he, ih]
    have hp : Nat.choose (t + 2) 2 = Nat.choose (t + 1) 1 + Nat.choose (t + 1) 2 :=
      Nat.choose_succ_succ (t + 1) 1
    rw [hp, Nat.choose_one_right]
    omega

theorem sum_inner_lengths (n i : Nat) :
    ((List.range (n - i)).map fun m => n - (i + m)).sum
      = Nat.choose (n - i + 1) 2 := by
  have he : ((List.range (n - i)).map fun m => n - (i + m))
      = (List.range (n - i)).map fun m => (n - i) - m :=
    List.map_congr_left fun m _ => by omega
  rw [he, sum_range_sub]

theorem sum_choose2 (n : Nat) :
    ((List.range n).map fun i => Nat.choose (n - i + 1) 2).sum
      = Nat.choose (n + 2) 3 := by
  induction n with
  | zero => simp
  | succ n ih =>
    rw [List.range_succ_eq_map, List.map_cons, List.map_map, List.sum_cons]
    have he : ((List.range n).map ((fun i => Nat.choose (n + 1 - i + 1) 2) ∘ Nat.succ)).sum
        = ((List.range n).map fun i => Nat.choose (n - i + 1) 2).sum := by
      congr 1
      apply List.map_congr_left
      intro i _
      simp only [Function.comp]
      congr 2
      omega
    rw [he, ih]
    have hp : Nat.choose (n + 3) 3 = Nat.choose (n + 2) 2 + Nat.choose (n + 2) 3 :=
      Nat.choose_succ_succ (n + 2) 2
    show Nat.choose (n + 2) 2 + Nat.choose (n + 2) 3 = Nat.choose (n + 3) 3
    omega

theorem length_idxTriples (n : Nat) :
    (idxTriples n).length = Nat.choose (n + 2) 3 := by
  unfold idxTriples
  simp only [List.length_flatMap, Function.comp_def, List.map_map,
    List.length_map, List.length_range]
  have he : ((List.range n).map fun i =>
        ((List.range (n - i)).map fun m => n - (i + m)).sum)
      = (List.range n).map fun i => Nat.choose (n - i + 1) 2 :=
    List.map_congr_left fun i _ => sum_inner_lengths n i
  rw [he, sum_choose2]

theorem perm3_acb (a b c : Nat) : [a, b, c].Perm [a, c, b] :=
  List.Perm.cons a (List.Perm.swap c b [])

theorem perm3_bac (a b c : Nat) : [a, b, c].Perm [b, a, c] :=
  List.Perm.swap b a [c]

theorem perm3_bca (a b c : Nat) : [a, b, c].Perm [b, c, a] :=
  (perm3_bac a b c).trans (List.Perm.cons b (List.Perm.swap c a []))

theorem perm3_cab (a b c : Nat) : [a, b, c].Perm [c, a, b] :=
  (perm3_acb a b c).trans (List.Perm.swap c a [b])

theorem perm3_cba (a b c : Nat) : [a, b, c].Perm [c, b, a] :=
  (perm3_cab a b c).trans (List.Perm.cons c (List.Perm.swap b a []))

theorem sorted_triple_unique {a b c a' b' c' : Nat}
    (s1 : a ≤ b) (s2 : b ≤ c) (s3 : a' ≤ b') (s4 : b' ≤ c')
    (hp : [a, b, c].Perm [a', b', c']) : a = a' ∧ b = b' ∧ c = c' := by
  have hs1 : List.Sorted (· ≤ ·) [a, b, c] := by
    simp [List.sorted_cons]; omega
  have hs2 : List.Sorted (· ≤ ·) [a', b', c'] := by
    simp [List.sorted_cons]; omega
  have hs : [a, b, c] = [a', b', c'] := List.eq_of_perm_of_sorted hp hs1 hs2
  simp only [List.cons.injEq, and_true] at hs
  exact ⟨hs.1, hs.2.1, hs.2.2⟩

/-- C2: the triple loop of `state_counts` visits exactly the column triples
indexed by `idxTriples`; those index triples are duplicate-free, are
exactly the sorted triples below the pair count, contain no two distinct
permutation-equivalent triples, contain a representative of every
unordered triple of indices, and number `C(P+2, 3)`, which also equals
`intermediate_count + final_count + #skipped invalid triples`. -/
theorem state_counts_triple_enumeration (hps : List (HandExplicit × HandExplicit)) :
    visitedTriples hps = (idxTriples hps.length).map (get3 hps) ∧
    (idxTriples hps.length).Nodup ∧
    (∀ t : Nat × Nat × Nat, t ∈ idxTriples hps.length ↔
      t.1 ≤ t.2.1 ∧ t.2.1 ≤ t.2.2 ∧ t.2.2 < hps.length) ∧
    (∀ t ∈ idxTriples hps.length, ∀ t' ∈ idxTriples hps.length,
      [t.1, t.2.1, t.2.2].Perm [t'.1, t'.2.1, t'.2.2] → t = t') ∧
    (∀ a b c : Nat, a < hps.length → b < hps.length → c < hps.length →
      ∃ t ∈ idxTriples hps.length, [a, b, c].Perm [t.1, t.2.1, t.2.2]) ∧
    (visitedTriples hps).length = Nat.choose (hps.length + 2) 3 ∧
    Nat.choose (hps.length + 2) 3 =
      (state_counts hps).1 + (state_counts hps).2 +
        (visitedTriples hps).countP tripleInvalid := by
  have hv := visited_eq hps
  have hlen : (visitedTriples hps).length = Nat.choose (hps.length + 2) 3 := by
    rw [hv, List.length_map, length_idxTriples]
  refine ⟨hv, nodup_idxTriples _, fun t => mem_idxTriples, ?_, ?_, hlen, ?_⟩
  · rintro ⟨i, j, k⟩ ht ⟨i', j', k'⟩ ht' hperm
    have h1 := mem_idxTriples.1 ht
    have h2 := mem_idxTriples.1 ht'
    dsimp only at h1 h2
    have h3 := sorted_triple_unique h1.1 h1.2.1 h2.1 h2.2.1 hperm
    simp only [Prod.mk.injEq]
    omega
  · intro a b c ha hb hc
    rcases Nat.le_total a b with h1 | h1
    · rcases Nat.le_total b c with h2 | h2
      · exact ⟨(a, b, c), mem_idxTriples.2 ⟨h1, h2, hc⟩, List.Perm.refl _⟩
      · rcases Nat.le_total a c with h3 | h3
        · exact ⟨(a, c, b), mem_idxTriples.2 ⟨h3, h2, hb⟩, perm3_acb a b c⟩
        · exact ⟨(c, a, b), mem_idxTriples.2 ⟨h3, h1, hb⟩, perm3_cab a b c⟩
    · rcases Nat.le_total a c with h2 | h2
      · exact ⟨(b, a, c), mem_idxTriples.2 ⟨h1, h2, hc⟩, perm3_bac a b c⟩
      · rcases Nat.le_total b c with h3 | h3
        · exact ⟨(b, c, a), mem_idxTriples.2 ⟨h3, h2, ha⟩, perm3_bca a b c⟩
        · exact ⟨(c, b, a), mem_idxTriples.2 ⟨h3, h1, ha⟩, perm3_cba a b c⟩
  · have hc := state_counts_eq_countP hps
    have hp := countP_partition (visitedTriples hps)
    rw [hc]
    simp only
    omega

/-- C2 witness: the uniqueness and coverage parts instantiated for the
two-element pair list `samplePairs`. -/
theorem state_counts_triple_enumeration_witness :
    ((0, 0, 1) : Nat × Nat × Nat) = (0, 0, 1) ∧
      ∃ t ∈ idxTriples samplePairs.length, [1, 0, 0].Perm [t.1, t.2.1, t.2.2] :=
  ⟨(state_counts_triple_enumeration samplePairs).2.2.2.1 (0, 0, 1) (by decide)
      (0, 0, 1) (by decide) (by decide),
   (state_counts_triple_enumeration samplePairs).2.2.2.2.1 1 0 0 (by decide)
      (by decide) (by decide)⟩

/-- C3: a visited triple with both players full is skipped (the
accumulators are returned unchanged, with no error path); for a
non-skipped triple the final counter is incremented iff exactly one of
`p1_full`, `p2_full` holds, and the intermediate counter is incremented
iff neither holds; consequently `state_counts` returns exactly the counts
of intermediate and final triples among the visited ones. -/
theorem state_counts_classification :
    (∀ c1 c2 c3 acc, p1_full c1 c2 c3 = true → p2_full c1 c2 c3 = true →
        countStep c1 c2 c3 acc = acc) ∧
    (∀ c1 c2 c3 acc, ¬(p1_full c1 c2 c3 = true ∧ p2_full c1 c2 c3 = true) →
      (((countStep c1 c2 c3 acc).2 = acc.2 + 1 ∧
          (countStep c1 c2 c3 acc).1 = acc.1) ↔
        ((p1_full c1 c2 c3 = true ∧ p2_full c1 c2 c3 = false) ∨
         (p1_full c1 c2 c3 = false ∧ p2_full c1 c2 c3 = true))) ∧
      (((countStep c1 c2 c3 acc).1 = acc.1 + 1 ∧
          (countStep c1 c2 c3 acc).2 = acc.2) ↔
        (p1_full c1 c2 c3 = false ∧ p2_full c1 c2 c3 = false))) ∧
    (∀ hps, state_counts hps =
      ((visitedTriples hps).countP tripleIntermediate,
       (visitedTriples hps).countP tripleFinal)) := by
  refine ⟨?_, ?_, state_counts_eq_countP⟩
  · intro c1 c2 c3 acc h1 h2
    rw [countStep_eq]
    unfold tripleIntermediate tripleFinal at *
    simp only at h1 h2 ⊢
    rw [h1, h2]
    simp
  · intro c1 c2 c3 acc hne
    rw [countStep_eq]
    unfold tripleIntermediate tripleFinal
    cases h1 : p1_full c1 c2 c3 <;> cases h2 : p2_full c1 c2 c3 <;>
      simp_all

/-- C3 witness: a both-full triple is skipped from the accumulator
`(5, 7)`, and a one-player-full triple increments only the final counter
from `(0, 0)`. -/
theorem state_counts_classification_witness :
    countStep (HandExplicit.new .ONE .ONE .ONE, HandExplicit.new .TWO .TWO .TWO)
        (HandExplicit.new .ONE .ONE .ONE, HandExplicit.new .TWO .TWO .TWO)
        (HandExplicit.new .ONE .ONE .ONE, HandExplicit.new .TWO .TWO .TWO)
        (5, 7) = (5, 7) ∧
      ((countStep (HandExplicit.new .ONE .ONE .ONE, HandExplicit.new .TWO .TWO .TWO)
          (HandExplicit.new .ONE .ONE .ONE, HandExplicit.new .TWO .TWO .TWO)
          (HandExplicit.new .ONE .ONE .ONE, HandExplicit.empty)
          (0, 0)).2 = 0 + 1 ∧
        (countStep (HandExplicit.new .ONE .ONE .ONE, HandExplicit.new .TWO .TWO .TWO)
          (HandExplicit.new .ONE .ONE .ONE, HandExplicit.new .TWO .TWO .TWO)
          (HandExplicit.new .ONE .ONE .ONE, HandExplicit.empty)
          (0, 0)).1 = 0) :=
  ⟨state_counts_classification.1 _ _ _ (5, 7) (by decide) (by decide),
   (state_counts_classification.2.1 _ _ _ (0, 0) (by decide)).1.mpr
     (Or.inl ⟨by decide, by decide⟩)⟩

/-- C9: the program is deterministic — a run is a function of no input,
so any two runs print identical output — and the output is exactly five
lines, in order: hand count (84), hand-pair count, intermediate-state
count, final-state count, and the sum of the two state counts, each as
`Label: integer`. -/
theorem main_output_deterministic :
    (∀ u v : Unit, runProgram u = runProgram v) ∧
    mainLines.length = 5 ∧
    mainLines =
      ["Hands: " ++ toString (84 : Nat),
       "Hand pairs: " ++ toString (hand_pairs hands).length,
       "Intermediate states: " ++ toString (state_counts (hand_pairs hands)).1,
       "Final states: " ++ toString (state_counts (hand_pairs hands)).2,
       "Total: " ++ toString ((state_counts (hand_pairs hands)).1
         + (state_counts (hand_pairs hands)).2)] := by
  refine ⟨fun u v => rfl, rfl, ?_⟩
  simp only [mainLines, hands_length]
